import Mathlib

/-!
Verification of the phonetic text normalizer `PhonemeUtils`
(`src/jivas/phoneme_interact_action/modules/phoneme_utils.py`).

The Python code is a pipeline of regex rewrites over strings.  We embed
strings as `List Char` and translate every pass from the source:

* `re.sub` scanning (left-to-right, non-overlapping, first match per
  position, resume after the matched span) is modelled by the generic
  fuel-based scanner `reSubAux`; a matcher receives the character that
  precedes the current position (needed for the `\b` word boundary and the
  MULTILINE `^`) and the remaining text, and returns
  `(replacement, consumed, rest)` on success.
* `\w` (Python `re` on ASCII input) is `isWordChar`; `\s` is `isPySpace`;
  `\b` holds at a position iff exactly one of the two neighbouring
  characters is a word character (out of bounds counts as non-word).
* `re.findall` is `findAllAux`, collecting one result per non-overlapping
  match.
* Character classes and the concrete patterns of the source
  (phone numbers, URLs, e-mails, markdown) are translated matcher by
  matcher; each matcher's doc comment names the pattern it embeds.
* Python `dict` (insertion ordered, unique keys) is `List (List Char × List Char)`;
  `sorted(mapping, key=len, reverse=True)` is the stable insertion sort
  `sortKeysDesc` (longest first, ties keep insertion order).
* `re.sub`'s replacement-template processing (which Python performs before
  scanning and which can raise `re.error`) is `compileTemplate`; failures
  are surfaced as `Except.error`, so `process_word_replacements` and
  `phonetic_format` return `Except String (List Char)`.
  Modelled simplifications (never exercised by the theorems below, which
  only use backslash-free values and a lone trailing backslash):
  `\g<...>` named references are not modelled, `\0` consumes exactly one
  octal digit, and a two-digit group reference is reported as an invalid
  group (the pattern has a single group).
* `HTMLParser`-based tag stripping (`MLStripper`) is `strip_tags`:
  a `<` opening a tag-like construct (next char a letter, `/`, `!` or `?`)
  is skipped up to the next `>`; an unterminated tag swallows the rest of
  the input (matching `feed` without `close`); any other character is data.
  Character-reference decoding (`convert_charrefs`) is not modelled; no
  theorem below feeds `&` or `<` into `strip_tags`.
-/

/-- Python `\w` on ASCII text: letters, digits and underscore. -/
def isWordChar (c : Char) : Bool := c.isAlphanum || c == '_'

/-- Python `\s`: space, tab, newline, carriage return, vertical tab, form feed. -/
def isPySpace (c : Char) : Bool :=
  c == ' ' || c == '\t' || c == '\n' || c == '\r' || c == Char.ofNat 11 || c == Char.ofNat 12

/-- Word-character status of the head of the remaining text (`false` at the end). -/
def restW : List Char → Bool
  | [] => false
  | c :: _ => isWordChar c

/-- Word-character status of the optional preceding character (`false` at the start). -/
def optW : Option Char → Bool
  | none => false
  | some c => isWordChar c

/-- Word boundary `\b`: exactly one of the two sides is a word character. -/
def bnd (l r : Bool) : Bool := l != r

/-- Matches a literal character sequence at the head, returning the rest. -/
def litPref : List Char → List Char → Option (List Char)
  | [], s => some s
  | p :: ps, c :: cs => if p == c then litPref ps cs else none
  | _ :: _, [] => none

/-- All suffixes of a list, longest first (the list itself down to `[]`). -/
def sufxs : List Char → List (List Char)
  | [] => [[]]
  | c :: cs => (c :: cs) :: sufxs cs

/-- Scanner for `re.sub`: try the matcher at every position, left to right;
on success emit the replacement and resume after the consumed span (an empty
match emits the replacement and advances one character, as Python does);
on failure copy one character.  `prev` is the character before the current
position.  Fuel decreases once per step; `reSub` supplies enough. -/
def reSubAux (m : Option Char → List Char → Option (List Char × List Char × List Char)) :
    Nat → Option Char → List Char → List Char
  | 0, _, s => s
  | _ + 1, prev, [] =>
    match m prev [] with
    | some (rep, _, _) => rep
    | none => []
  | fuel + 1, prev, c :: rest =>
    match m prev (c :: rest) with
    | none => c :: reSubAux m fuel (some c) rest
    | some (rep, [], _) => rep ++ c :: reSubAux m fuel (some c) rest
    | some (rep, d :: ds, rest2) => rep ++ reSubAux m fuel (some (List.getLastD ds d)) rest2

/-- `re.sub pattern repl text` for a matcher `m` embedding the pattern. -/
def reSub (m : Option Char → List Char → Option (List Char × List Char × List Char))
    (s : List Char) : List Char :=
  reSubAux m (s.length + 1) none s

/-- `re.search` as a Boolean: does the matcher fire at some position?
The matchers used with it only consult the word-character status of the
preceding character, passed as `w`. -/
def hasMatchAux (m : Bool → List Char → Option (List Char × List Char × List Char)) :
    Bool → List Char → Bool
  | w, [] => (m w []).isSome
  | w, c :: rest => (m w (c :: rest)).isSome || hasMatchAux m (isWordChar c) rest

/-- `re.findall`: collect one result per non-overlapping match, scanning left
to right; on a match, resume after the consumed span. -/
def findAllAux {α : Type} (m : Bool → List Char → Option (α × List Char × List Char)) :
    Nat → Bool → List Char → List α
  | 0, _, _ => []
  | _ + 1, w, [] =>
    match m w [] with
    | some (x, _, _) => [x]
    | none => []
  | fuel + 1, w, c :: rest =>
    match m w (c :: rest) with
    | none => findAllAux m fuel (isWordChar c) rest
    | some (x, [], _) => x :: findAllAux m fuel (isWordChar c) rest
    | some (x, d :: ds, rest2) => x :: findAllAux m fuel (isWordChar (List.getLastD ds d)) rest2

/-- Python `str.replace(old, new, 1)`: replace the first occurrence only. -/
def replaceFirst (pat rep : List Char) : List Char → List Char
  | [] => if pat.isEmpty then rep else []
  | c :: cs =>
    match litPref pat (c :: cs) with
    | some rest => rep ++ rest
    | none => c :: replaceFirst pat rep cs

/-- Python `str.replace(old, new)`: replace all occurrences, left to right,
resuming after each replacement. -/
def replaceAllAux (pat rep : List Char) : Nat → List Char → List Char
  | 0, s => s
  | _ + 1, [] => []
  | fuel + 1, c :: cs =>
    match litPref pat (c :: cs) with
    | some rest => rep ++ replaceAllAux pat rep fuel rest
    | none => c :: replaceAllAux pat rep fuel cs

/-- Python `str.replace(old, new)` (all occurrences). -/
def replaceAll (pat rep s : List Char) : List Char :=
  replaceAllAux pat rep (s.length + 1) s

/-- Python `s.split(sep, 1)` for a multi-character separator: split at the
first occurrence of `delim`, `none` when absent. -/
def splitFirst (delim : List Char) : List Char → Option (List Char × List Char)
  | [] =>
    match litPref delim [] with
    | some rest => some ([], rest)
    | none => none
  | c :: cs =>
    match litPref delim (c :: cs) with
    | some rest => some ([], rest)
    | none =>
      match splitFirst delim cs with
      | some (a, b) => some (c :: a, b)
      | none => none

/-- Python `s.split(sep)` for a single-character separator: every occurrence
splits, empty pieces are kept, and the result is never empty. -/
def splitOnChar (sp : Char) : List Char → List (List Char)
  | [] => [[]]
  | c :: cs =>
    let r := splitOnChar sp cs
    if c == sp then [] :: r
    else
      match r with
      | [] => [[c]]
      | p :: ps => (c :: p) :: ps

/-- Interleave a separator between pieces (used for `create_tts`'s loop). -/
def joinSep (sep : List Char) : List (List Char) → List Char
  | [] => []
  | [p] => p
  | p :: ps => p ++ sep ++ joinSep sep ps

/-- Separator class `[ -]` of the phone patterns. -/
def isSep (c : Char) : Bool := c == ' ' || c == '-'

/-- Phone pattern 1, `\b(\d)(\d)(\d)[ -](\d)(\d)(\d)[ -](\d)(\d)(\d)(\d)\b`
with replacement `\1-\2-\3-\4-\5-\6-\7-\8-\9-\10` (source line 55).
`w` is the word-character status of the preceding character. -/
def phone1core (w : Bool) : List Char → Option (List Char × List Char × List Char)
  | a :: b :: c :: s1 :: d :: e :: f :: s2 :: g :: h :: i :: j :: rest =>
    if bnd w (isWordChar a) && a.isDigit && b.isDigit && c.isDigit && isSep s1 &&
        d.isDigit && e.isDigit && f.isDigit && isSep s2 &&
        g.isDigit && h.isDigit && i.isDigit && j.isDigit &&
        bnd (isWordChar j) (restW rest) then
      some ([a, '-', b, '-', c, '-', d, '-', e, '-', f, '-', g, '-', h, '-', i, '-', j],
            [a, b, c, s1, d, e, f, s2, g, h, i, j], rest)
    else none
  | _ => none

/-- Phone pattern 2, `\b\((\d)(\d)(\d)\)[ -](\d)(\d)(\d)[ -](\d)(\d)(\d)\b`
with replacement `\1-\2-\3-\4-\5-\6-\7-\8-\9` (source line 56).  The leading
`\b` sits between the preceding character and `(`, so it requires a word
character before `(`. -/
def phone2core (w : Bool) : List Char → Option (List Char × List Char × List Char)
  | p :: a :: b :: c :: q :: s1 :: d :: e :: f :: s2 :: g :: h :: i :: rest =>
    if bnd w (isWordChar p) && (p == '(') && a.isDigit && b.isDigit && c.isDigit &&
        (q == ')') && isSep s1 && d.isDigit && e.isDigit && f.isDigit && isSep s2 &&
        g.isDigit && h.isDigit && i.isDigit && bnd (isWordChar i) (restW rest) then
      some ([a, '-', b, '-', c, '-', d, '-', e, '-', f, '-', g, '-', h, '-', i],
            [p, a, b, c, q, s1, d, e, f, s2, g, h, i], rest)
    else none
  | _ => none

/-- Phone pattern 3, `\b(\d)(\d)(\d)[ -](\d)(\d)(\d)(\d)\b` with replacement
`\1-\2-\3-\4-\5-\6-\7` (source line 57). -/
def phone3core (w : Bool) : List Char → Option (List Char × List Char × List Char)
  | a :: b :: c :: s1 :: d :: e :: f :: g :: rest =>
    if bnd w (isWordChar a) && a.isDigit && b.isDigit && c.isDigit && isSep s1 &&
        d.isDigit && e.isDigit && f.isDigit && g.isDigit &&
        bnd (isWordChar g) (restW rest) then
      some ([a, '-', b, '-', c, '-', d, '-', e, '-', f, '-', g],
            [a, b, c, s1, d, e, f, g], rest)
    else none
  | _ => none

/-- One step of `process_phone_numbers`'s loop:
`if re.search(pattern, text): text = re.sub(pattern, replacement, text)`. -/
def phoneSub (core : Bool → List Char → Option (List Char × List Char × List Char))
    (s : List Char) : List Char :=
  if hasMatchAux core false s then reSub (fun prev t => core (optW prev) t) s else s

/-- `PhonemeUtils.process_phone_numbers` (source lines 51-64): the three
patterns applied in order, each guarded by `re.search`. -/
def process_phone_numbers (s : List Char) : List Char :=
  phoneSub phone3core (phoneSub phone2core (phoneSub phone1core s))

/-- `convert_each_char`'s character table (`.` → " dot ", `-` → " dash ",
`/` → " slash "; source lines 129-133). -/
def cecMap (c : Char) : Option (List Char) :=
  if c == '.' then some (" dot ".toList)
  else if c == '-' then some (" dash ".toList)
  else if c == '/' then some (" slash ".toList)
  else none

/-- `PhonemeUtils.convert_each_char` (source line 134): an alphanumeric
character emits itself followed by a hyphen (`mappings.get(char, char) + '-'`);
any other character emits its table entry or nothing. -/
def convert_each_char (part : List Char) : List Char :=
  part.foldr
    (fun c acc =>
      (if c.isAlphanum then ((cecMap c).getD [c]) ++ ['-'] else (cecMap c).getD []) ++ acc)
    []

/-- `PhonemeUtils.create_tts` (source lines 137-144): split on `splitter`,
spell each piece, join with `separator`. -/
def create_tts (segment : List Char) (separator : List Char) (splitter : Char) : List Char :=
  joinSep separator ((splitOnChar splitter segment).map convert_each_char)

/-- `PhonemeUtils.create_url_tts` (source lines 93-100). -/
def create_url_tts (protocol domain path : List Char) : List Char :=
  let p := replaceAll "http".toList "h-t-t-p".toList
    (replaceAll "https".toList "h-t-t-p-s".toList protocol)
  let tts := p ++ " colon slash slash ".toList ++ create_tts domain " dot ".toList '.'
  let tts := if path.isEmpty then tts
    else tts ++ " slash ".toList ++ create_tts path " slash ".toList '/'
  tts ++ [' ']

/-- `process_url` inside `process_urls` (source lines 70-75): split the URL at
the first `://` into protocol and remainder, the remainder at the first `/`
into domain and path.  A URL without `://` cannot reach this function
(Python would raise on unpacking); it is modelled as the identity. -/
def process_url (url : List Char) : List Char :=
  match splitFirst "://".toList url with
  | none => url
  | some (protocol, remainder) =>
    match splitFirst ['/'] remainder with
    | none => create_url_tts protocol remainder []
    | some (domain, path) => create_url_tts protocol domain path

/-- Greedy shrink for a trailing `\b` after a character-class run:
`runRev` is the consumed run reversed; try the longest keep first, dropping
characters (pushed back onto `rest`) until the boundary between the last kept
character (`lastC` when the whole run is dropped) and the next one holds. -/
def shrinkB (lastC : Char) : List Char → List Char → Option (List Char × List Char)
  | [], rest => if bnd (isWordChar lastC) (restW rest) then some ([], rest) else none
  | r :: rs, rest =>
    if bnd (isWordChar r) (restW rest) then some ((r :: rs).reverse, rest)
    else shrinkB lastC rs (r :: rest)

/-- Matcher for `url_pattern = \b(?:http|https)://[^\s]*\b` (source line 32).
The alternation tries `http` first, so it is equivalent to accepting the
literal prefix `http://` or else `https://`; then a greedy run of non-space
characters, shrunk until the trailing `\b` holds.  Returns (match, rest). -/
def urlMatch (w : Bool) (s : List Char) : Option (List Char × List Char) :=
  if bnd w (restW s) then
    match litPref "http://".toList s with
    | some rest1 =>
      match shrinkB '/' (rest1.takeWhile (fun c => !(isPySpace c))).reverse
          (rest1.dropWhile (fun c => !(isPySpace c))) with
      | some (run, rest2) => some ("http://".toList ++ run, rest2)
      | none => none
    | none =>
      match litPref "https://".toList s with
      | some rest1 =>
        match shrinkB '/' (rest1.takeWhile (fun c => !(isPySpace c))).reverse
            (rest1.dropWhile (fun c => !(isPySpace c))) with
        | some (run, rest2) => some ("https://".toList ++ run, rest2)
        | none => none
      | none => none
  else none

/-- Matcher for `markdown_pattern = \[([^\]]*)\]\((http[^\s)]+)\)` (source
line 34).  Both classes exclude the character that follows them, so matching
is deterministic: a `[`, a run of non-`]`, `](`, the literal `http`, a
non-empty run of characters that are neither whitespace nor `)`, then `)`.
Returns ((label, url), consumed, rest). -/
def mdMatch (s : List Char) : Option ((List Char × List Char) × List Char × List Char) :=
  match s with
  | c :: rest =>
    if c == '[' then
      let label := rest.takeWhile (fun x => !(x == ']'))
      match rest.dropWhile (fun x => !(x == ']')) with
      | x :: y :: rest2 =>
        if (x == ']') && (y == '(') then
          match litPref "http".toList rest2 with
          | some rest3 =>
            let run := rest3.takeWhile (fun z => !(isPySpace z) && !(z == ')'))
            match rest3.dropWhile (fun z => !(isPySpace z) && !(z == ')')) with
            | z :: rest4 =>
              if (z == ')') && !run.isEmpty then
                let url := "http".toList ++ run
                some ((label, url), c :: label ++ [x, y] ++ url ++ [z], rest4)
              else none
            | [] => none
          | none => none
        else none
      | _ => none
    else none
  | [] => none

/-- `markdown_pattern.findall(text)` (source line 78). -/
def mdFindall (s : List Char) : List (List Char × List Char) :=
  findAllAux (fun _ t => mdMatch t) (s.length + 1) false s

/-- `url_pattern.findall(text)` (source line 85). -/
def urlFindall (s : List Char) : List (List Char) :=
  findAllAux (fun w t => (urlMatch w t).map (fun p => (p.1, p.1, p.2))) (s.length + 1) false s

/-- The literal span `[label](url)` rebuilt by the f-string on source line 82. -/
def mdSpan (label url : List Char) : List Char :=
  '[' :: label ++ [']', '('] ++ url ++ [')']

/-- `PhonemeUtils.process_urls` (source lines 67-90): markdown-link URLs whose
URL part passes `re.match(url_pattern, url)` are replaced first (one
`str.replace(..., 1)` per `findall` entry), then each plain URL found in the
updated text is replaced the same way. -/
def process_urls (text : List Char) : List Char :=
  let t1 := (mdFindall text).foldl
    (fun t lu =>
      if (urlMatch false lu.2).isSome then
        replaceFirst (mdSpan lu.1 lu.2) (process_url lu.2) t
      else t)
    text
  (urlFindall t1).foldl (fun t u => replaceFirst u (process_url u) t) t1

/-- Class `[a-zA-Z0-9_.+-]` of the e-mail local part. -/
def isLocalChar (c : Char) : Bool :=
  c.isAlphanum || c == '_' || c == '.' || c == '+' || c == '-'

/-- Class `[a-zA-Z0-9-]` of the first domain label. -/
def isDomChar (c : Char) : Bool := c.isAlphanum || c == '-'

/-- Class `[a-zA-Z0-9-.]` of the domain tail. -/
def isDom2Char (c : Char) : Bool := c.isAlphanum || c == '-' || c == '.'

/-- Matcher for
`email_pattern = \b([a-zA-Z0-9_.+-]+@[a-zA-Z0-9-]+\.[a-zA-Z0-9-.]+)\b`
(source line 33).  The first three runs are deterministic (each class
excludes the delimiter that follows); the last run is shrunk greedily for the
trailing `\b` and must stay non-empty. -/
def emailMatch (w : Bool) (s : List Char) : Option (List Char × List Char × List Char) :=
  if bnd w (restW s) then
    let r1 := s.takeWhile isLocalChar
    if r1.isEmpty then none
    else
      match s.dropWhile isLocalChar with
      | c :: rest2 =>
        if c == '@' then
          let r2 := rest2.takeWhile isDomChar
          if r2.isEmpty then none
          else
            match rest2.dropWhile isDomChar with
            | d :: rest4 =>
              if d == '.' then
                let r3 := rest4.takeWhile isDom2Char
                if r3.isEmpty then none
                else
                  match shrinkB '.' r3.reverse (rest4.dropWhile isDom2Char) with
                  | some (r3k, restF) =>
                    if r3k.isEmpty then none
                    else
                      let mtch := r1 ++ '@' :: r2 ++ '.' :: r3k
                      some (mtch, mtch, restF)
                  | none => none
              else none
            | [] => none
        else none
      | [] => none
  else none

/-- `re.findall(email_pattern, text)` (source line 103); the pattern's single
group is the whole e-mail, so `findall` returns the matched strings. -/
def emailFindall (s : List Char) : List (List Char) :=
  findAllAux (fun w t => emailMatch w t) (s.length + 1) false s

/-- `PhonemeUtils.process_emails` (source lines 102-109): for each found
e-mail, split at `@`, spell both sides with " dot ", join with " at ", and
replace the first occurrence in the current text. -/
def process_emails (text : List Char) : List Char :=
  (emailFindall text).foldl
    (fun t em =>
      match splitFirst ['@'] em with
      | some (username, domain) =>
        replaceFirst em
          (create_tts username " dot ".toList '.' ++ " at ".toList ++
            create_tts domain " dot ".toList '.') t
      | none => t)
    text

/-- Items of a compiled `re.sub` replacement template: a literal character or
a reference to group 1 (the whole escaped key in `process_word_replacements`'s
pattern). -/
inductive TItem : Type
  | lit : Char → TItem
  | grp : TItem
deriving DecidableEq

/-- Python's replacement-template parsing (`re._parser.parse_template`),
performed before scanning, for a pattern with exactly one group: a lone
trailing backslash or an unknown letter escape is an error, `\\` is a
literal backslash, `\1` is group 1, any other group number is invalid for
this pattern, `\0` is a NUL literal, and a backslash before any other
character is kept verbatim.  (See the file header for the modelled
simplifications; theorems use only backslash-free values and `"\\"`.) -/
def compileTemplate : List Char → Except String (List TItem)
  | [] => Except.ok []
  | c :: cs =>
    if c == '\\' then
      match cs with
      | [] => Except.error "bad escape (end of pattern)"
      | e :: es =>
        if e == '\\' then (compileTemplate es).map (fun t => TItem.lit '\\' :: t)
        else if e == '1' then
          match es with
          | f :: _ =>
            if f.isDigit then Except.error "invalid group reference"
            else (compileTemplate es).map (fun t => TItem.grp :: t)
          | [] => (compileTemplate es).map (fun t => TItem.grp :: t)
        else if e == '0' then (compileTemplate es).map (fun t => TItem.lit (Char.ofNat 0) :: t)
        else if e.isDigit then Except.error "invalid group reference"
        else if e.isAlpha then Except.error "bad escape"
        else (compileTemplate es).map (fun t => TItem.lit '\\' :: TItem.lit e :: t)
    else (compileTemplate cs).map (fun t => TItem.lit c :: t)

/-- Expand a compiled template at a match whose group 1 captured `g`. -/
def expandT (g : List Char) : List TItem → List Char
  | [] => []
  | TItem.lit c :: t => c :: expandT g t
  | TItem.grp :: t => g ++ expandT g t

/-- Case-insensitive character comparison (`re.I` on ASCII text). -/
def lowEq (a b : Char) : Bool := a.toLower == b.toLower

/-- Match the key case-insensitively at the head of the text, returning the
actually consumed characters (group 1) and the rest. -/
def keyPref : List Char → List Char → Option (List Char × List Char)
  | [], s => some ([], s)
  | k :: ks, c :: cs =>
    if lowEq k c then
      match keyPref ks cs with
      | some (con, rest) => some (c :: con, rest)
      | none => none
    else none
  | _ :: _, [] => none

/-- Matcher for `(?<!\w)(escaped_key)(?!\w)` with `re.I` (source line 120):
the previous character must not be a word character, the key matches
case-insensitively, the next character must not be a word character; the
replacement is the expanded template. -/
def wordKeyMatch (key : List Char) (tmpl : List TItem) (prev : Option Char) (s : List Char) :
    Option (List Char × List Char × List Char) :=
  if optW prev then none
  else
    match keyPref key s with
    | some (consumed, rest) =>
      if restW rest then none else some (expandT consumed tmpl, consumed, rest)
    | none => none

/-- Stable insertion of a key into a length-descending key list: the new key
goes before the first key that is not longer, so equal lengths keep the
original order (Python `sorted(..., key=len, reverse=True)` is stable). -/
def insertKeyDesc (k : List Char) : List (List Char) → List (List Char)
  | [] => [k]
  | x :: xs => if x.length ≤ k.length then k :: x :: xs else x :: insertKeyDesc k xs

/-- `sorted(mapping, key=len, reverse=True)` (source line 116). -/
def sortKeysDesc : List (List Char) → List (List Char)
  | [] => []
  | k :: ks => insertKeyDesc k (sortKeysDesc ks)

/-- Python `mapping[key]`: first value stored under the key.  The default `[]`
is unreachable because looked-up keys come from the mapping itself. -/
def lookupVal (m : List (List Char × List Char)) (k : List Char) : List Char :=
  match m with
  | [] => []
  | p :: rest => if p.1 = k then p.2 else lookupVal rest k

/-- The loop body of `process_word_replacements`: for each key in sorted
order, compile the value as a replacement template (Python raises `re.error`
here even when the key never matches) and substitute. -/
def pwrGo (m : List (List Char × List Char)) :
    List (List Char) → List Char → Except String (List Char)
  | [], text => Except.ok text
  | k :: ks, text =>
    match compileTemplate (lookupVal m k) with
    | Except.error e => Except.error e
    | Except.ok tmpl => pwrGo m ks (reSub (wordKeyMatch k tmpl) text)

/-- `PhonemeUtils.process_word_replacements` (source lines 112-123). -/
def process_word_replacements (text : List Char) (mapping : List (List Char × List Char)) :
    Except String (List Char) :=
  pwrGo mapping (sortKeysDesc (mapping.map (fun p => p.1))) text

/-- Start-of-line test for the MULTILINE `^`: at the start of the string or
right after a newline. -/
def atLineStart : Option Char → Bool
  | none => true
  | some c => c == '\n'

/-- Matcher for `re.sub(r"^#.*$", "", md, flags=re.MULTILINE)` (source line
157): a `#` at a line start consumes to the end of the line (the newline
itself is kept); the replacement is empty. -/
def headerMatch (prev : Option Char) (s : List Char) :
    Option (List Char × List Char × List Char) :=
  match s with
  | c :: rest =>
    if atLineStart prev && (c == '#') then
      some ([], c :: rest.takeWhile (fun x => !(x == '\n')), rest.dropWhile (fun x => !(x == '\n')))
    else none
  | [] => none

/-- Last index at which `p` holds. -/
def lastP (p : Char → Bool) : List Char → Option Nat
  | [] => none
  | c :: cs =>
    match lastP p cs with
    | some i => some (i + 1)
    | none => if p c then some 0 else none

/-- Does `](` start at offset `j` of the line? -/
def brkAt (line : List Char) (j : Nat) : Bool :=
  match line.drop j with
  | x :: y :: _ => (x == ']') && (y == '(')
  | _ => false

/-- Largest `j ≤ limit` with `](` at `j`. -/
def maxBrk (line : List Char) : Nat → Option Nat
  | 0 => if brkAt line 0 then some 0 else none
  | j + 1 => if brkAt line (j + 1) then some (j + 1) else maxBrk line j

/-- Matcher for `re.sub(r"\[.*\]\(.*\)", "", md)` (source line 159).  `.`
does not match a newline, so everything happens on the line of the `[`:
greedily, the first `.*` ends at the last `](` that still leaves a `)`
behind, and the second `.*` ends at the last `)` of the line — so the match
runs from the `[` to the last `)` of the line, provided some `](` occurs at
least two characters before it.  The replacement is empty. -/
def linkMatch (s : List Char) : Option (List Char × List Char × List Char) :=
  match s with
  | c :: rest =>
    if c == '[' then
      let line := rest.takeWhile (fun x => !(x == '\n'))
      let after := rest.dropWhile (fun x => !(x == '\n'))
      match lastP (fun x => x == ')') line with
      | none => none
      | some k =>
        if k < 2 then none
        else
          match maxBrk line (k - 2) with
          | none => none
          | some _ => some ([], c :: line.take (k + 1), line.drop (k + 1) ++ after)
    else none
  | [] => none

/-- The class `[\*\~\`]` (asterisk, tilde, backtick). -/
def isEmph (c : Char) : Bool := c == '*' || c == '~' || c == Char.ofNat 96

/-- Matcher for `re.sub(r"[\*\~\`]{1,2}", "", md)` (source line 161): one or
(greedily) two emphasis characters; the replacement is empty. -/
def emphMatch (s : List Char) : Option (List Char × List Char × List Char) :=
  match s with
  | a :: b :: rest =>
    if isEmph a then
      if isEmph b then some ([], [a, b], rest) else some ([], [a], b :: rest)
    else none
  | [a] => if isEmph a then some ([], [a], []) else none
  | [] => none

/-- The class `[-\*]` of horizontal rules. -/
def isHr (c : Char) : Bool := c == '-' || c == '*'

/-- The class `[>\-\*]` of quote/list markers. -/
def isQm (c : Char) : Bool := c == '>' || c == '-' || c == '*'

/-- Matcher for `re.sub(r"[-\*]{3,}|[>\-\*]\s", "", md)` (source line 163):
first a greedy run of three or more rule characters, otherwise a single
marker followed by one whitespace character (both removed). -/
def ruleMatch (s : List Char) : Option (List Char × List Char × List Char) :=
  let run := s.takeWhile isHr
  if 3 ≤ run.length then some ([], run, s.dropWhile isHr)
  else
    match s with
    | a :: b :: rest => if isQm a && isPySpace b then some ([], [a, b], rest) else none
    | _ => none

/-- Is the character after `<` tag-like for `HTMLParser` (start tag, end tag,
comment/declaration, processing instruction)? -/
def tagOpener : List Char → Bool
  | c :: _ => c.isAlpha || c == '/' || c == '!' || c == '?'
  | [] => false

/-- Body of `strip_tags` (see the file header for the modelled `HTMLParser`
behavior).  Fuel decreases once per step; `strip_tags` supplies enough. -/
def stripTagsAux : Nat → List Char → List Char
  | 0, s => s
  | _ + 1, [] => []
  | fuel + 1, c :: rest =>
    if c == '<' then
      if tagOpener rest then
        match rest.dropWhile (fun x => !(x == '>')) with
        | _ :: tail => stripTagsAux fuel tail
        | [] => []
      else c :: stripTagsAux fuel rest
    else c :: stripTagsAux fuel rest

/-- `PhonemeUtils.strip_tags` (source lines 147-151) via `MLStripper`. -/
def strip_tags (s : List Char) : List Char :=
  stripTagsAux (s.length + 1) s

/-- Python `str.strip()`: drop leading and trailing whitespace. -/
def pyStrip (s : List Char) : List Char :=
  ((s.dropWhile isPySpace).reverse.dropWhile isPySpace).reverse

/-- `PhonemeUtils.remove_markdown` (source lines 154-166): the four regex
passes in order, then tag stripping, then `strip()`. -/
def remove_markdown (md : List Char) : List Char :=
  let m1 := reSub headerMatch md
  let m2 := reSub (fun _ s => linkMatch s) m1
  let m3 := reSub (fun _ s => emphMatch s) m2
  let m4 := reSub (fun _ s => ruleMatch s) m3
  pyStrip (strip_tags m4)

/-- `PhonemeUtils.phonetic_format` (source lines 20-48): phone numbers, then
URLs, then e-mails, then word replacements, then markdown/HTML stripping.
A replacement-template error from `process_word_replacements` (the only pass
that can raise) is propagated. -/
def phonetic_format (text : List Char) (mapping : List (List Char × List Char)) :
    Except String (List Char) :=
  let t1 := process_phone_numbers text
  let t2 := process_urls t1
  let t3 := process_emails t2
  match process_word_replacements t3 mapping with
  | Except.error e => Except.error e
  | Except.ok t4 => Except.ok (remove_markdown t4)

/-- Did the pipeline finish without a raised error? -/
def exceptOk : Except String (List Char) → Bool
  | Except.ok _ => true
  | Except.error _ => false

theorem mem_sufxs_self (s : List Char) : s ∈ sufxs s := by
  cases s <;> simp [sufxs]

theorem mem_sufxs_tail (c : Char) (cs t : List Char) (ht : t ∈ sufxs cs) :
    t ∈ sufxs (c :: cs) :=
  List.mem_cons_of_mem _ ht

theorem sufxs_sub (s t : List Char) (ht : t ∈ sufxs s) : ∀ x ∈ t, x ∈ s := by
  induction s with
  | nil =>
    simp [sufxs] at ht
    subst ht
    intro x hx
    cases hx
  | cons c cs ih =>
    simp only [sufxs, List.mem_cons] at ht
    rcases ht with rfl | ht
    · intro x hx; exact hx
    · intro x hx; exact List.mem_cons_of_mem c (ih ht x hx)

theorem reSubAux_id (m : Option Char → List Char → Option (List Char × List Char × List Char))
    (s : List Char) (H : ∀ prev t, t ∈ sufxs s → m prev t = none) :
    ∀ fuel prev, reSubAux m fuel prev s = s := by
  induction s with
  | nil =>
    intro fuel prev
    cases fuel with
    | zero => rfl
    | succ f => simp [reSubAux, H prev [] (mem_sufxs_self [])]
  | cons c cs ih =>
    intro fuel prev
    cases fuel with
    | zero => rfl
    | succ f =>
      simp [reSubAux, H prev (c :: cs) (mem_sufxs_self _),
        ih (fun p t htt => H p t (mem_sufxs_tail c cs t htt))]

theorem reSub_id (m : Option Char → List Char → Option (List Char × List Char × List Char))
    (s : List Char) (H : ∀ prev t, t ∈ sufxs s → m prev t = none) : reSub m s = s :=
  reSubAux_id m s H _ none

theorem hasMatchAux_false (m : Bool → List Char → Option (List Char × List Char × List Char))
    (s : List Char) (H : ∀ w t, t ∈ sufxs s → m w t = none) :
    ∀ w, hasMatchAux m w s = false := by
  induction s with
  | nil => intro w; simp [hasMatchAux, H w [] (mem_sufxs_self [])]
  | cons c cs ih =>
    intro w
    simp [hasMatchAux, H w (c :: cs) (mem_sufxs_self _),
      ih (fun w2 t ht => H w2 t (mem_sufxs_tail c cs t ht))]

theorem phoneSub_id (core : Bool → List Char → Option (List Char × List Char × List Char))
    (s : List Char) (H : ∀ w t, t ∈ sufxs s → core w t = none) : phoneSub core s = s := by
  simp [phoneSub, hasMatchAux_false core s H]

theorem reSubAux_step (m : Option Char → List Char → Option (List Char × List Char × List Char))
    (fuel : Nat) (prev : Option Char) (c : Char) (rest rep d2 : List Char) (d : Char)
    (rest2 : List Char) (h : m prev (c :: rest) = some (rep, d :: d2, rest2)) :
    reSubAux m (fuel + 1) prev (c :: rest) =
      rep ++ reSubAux m fuel (some (List.getLastD d2 d)) rest2 := by
  simp [reSubAux, h]

theorem reSubAux_nil (m : Option Char → List Char → Option (List Char × List Char × List Char))
    (fuel : Nat) (prev : Option Char) (h : m prev [] = none) :
    reSubAux m fuel prev [] = [] := by
  cases fuel <;> simp [reSubAux, h]

/-- Claim C1: `phonetic_format` is exactly the composition of the five passes
in order — phone numbers, then URLs (markdown before bare), then e-mails, then
custom word replacement, then markdown/HTML stripping (the last applied to the
successful result of the word-replacement pass). -/
theorem claim_c1_pipeline_order (text : List Char) (mapping : List (List Char × List Char)) :
    phonetic_format text mapping =
      Except.map remove_markdown
        (process_word_replacements
          (process_emails (process_urls (process_phone_numbers text))) mapping) := by
  cases h : process_word_replacements (process_emails (process_urls (process_phone_numbers text)))
      mapping with
  | error e => simp [phonetic_format, h, Except.map]
  | ok t => simp [phonetic_format, h, Except.map]

/-- Claim C2, counterexample: URL normalization of "https://example.com/page"
does not produce the claimed string without hyphens after the final characters
of the pieces — `convert_each_char` appends a hyphen after every alphanumeric
character, including the last one of each piece. -/
theorem claim_c2_counterexample :
    process_urls "https://example.com/page".toList ≠
      "h-t-t-p-s colon slash slash e-x-a-m-p-l-e dot c-o-m slash p-a-g-e ".toList := by
  decide

/-- Claim C2, amended: in the character-spelling sub-routine every
alphanumeric character — including the final character of a piece — is
followed by a hyphen (an all-alphanumeric piece spells to `c₁-c₂-…-cₙ-`), and
URL normalization of "https://example.com/page" produces exactly
"h-t-t-p-s colon slash slash e-x-a-m-p-l-e- dot c-o-m- slash p-a-g-e- ". -/
theorem claim_c2_amended :
    (∀ part : List Char, part.all Char.isAlphanum = true →
      convert_each_char part = part.foldr (fun c acc => c :: '-' :: acc) []) ∧
    convert_each_char "page".toList = "p-a-g-e-".toList ∧
    process_urls "https://example.com/page".toList =
      "h-t-t-p-s colon slash slash e-x-a-m-p-l-e- dot c-o-m- slash p-a-g-e- ".toList := by
  refine ⟨?_, by decide, by decide⟩
  intro part hall
  induction part with
  | nil => rfl
  | cons c cs ih =>
    simp only [List.all_cons, Bool.and_eq_true] at hall
    have hc : (cecMap c).getD [c] = [c] := by
      have h1 : (c == '.') = false := by
        cases h : c == '.'
        · rfl
        · rw [eq_of_beq h] at hall; cases hall.1
      have h2 : (c == '-') = false := by
        cases h : c == '-'
        · rfl
        · rw [eq_of_beq h] at hall; cases hall.1
      have h3 : (c == '/') = false := by
        cases h : c == '/'
        · rfl
        · rw [eq_of_beq h] at hall; cases hall.1
      simp [cecMap, h1, h2, h3]
    have hstep : convert_each_char (c :: cs) = c :: '-' :: convert_each_char cs := by
      simp [convert_each_char, hall.1, hc]
    rw [List.foldr_cons, hstep, ih hall.2]

/-- Claim C5: the code's behavior at the failing input.  The 9-digit
parenthesized pattern starts with `\b\(`, and a word boundary before `(`
requires a word character immediately before it, so "(123) 456 789" at the
start of the text (or after a space) is left unchanged; the same number
directly preceded by a word character is rewritten. -/
theorem claim_c5_code_behavior :
    process_phone_numbers "(123) 456 789".toList = "(123) 456 789".toList ∧
    process_phone_numbers " (123)-456-789".toList = " (123)-456-789".toList ∧
    process_phone_numbers "x(123) 456 789".toList = "x1-2-3-4-5-6-7-8-9".toList := by
  decide

/-- Claim C7, counterexample: with "http://a.b http://a.b", URL normalization
does not leave the second occurrence untouched — `findall` reports both
occurrences and each loop iteration replaces one, so the result is not the
claimed first-only rewrite. -/
theorem claim_c7_counterexample :
    process_urls "http://a.b http://a.b".toList ≠
      "h-t-t-p colon slash slash a- dot b-  http://a.b".toList := by
  decide

/-- Claim C7, amended: URL and e-mail normalization perform one
`str.replace(..., 1)` per `findall` match, and since `findall` reports every
non-overlapping occurrence, a URL or e-mail value occurring twice is rewritten
at both occurrences (the k-th iteration's replace-first hits the k-th original
occurrence); markdown-link spans are still each replaced once, before bare
URLs are processed. -/
theorem claim_c7_amended :
    process_urls "http://a.b http://a.b".toList =
      "h-t-t-p colon slash slash a- dot b-  h-t-t-p colon slash slash a- dot b- ".toList ∧
    process_emails "a@b.cd a@b.cd".toList =
      "a- at b- dot c-d- a- at b- dot c-d-".toList := by
  decide

/-- Claim C3: keys are processed longest-first and matched case-insensitively
at word boundaries — "Visit NASA HQ today" takes the "NASA HQ" replacement
(also with lower-case input), and for any replacement value the key "cat"
never fires inside "category" (the result is unchanged whenever the value is
a valid template, and the only possible failure is template compilation,
which is independent of the text). -/
theorem claim_c3_word_replacement :
    process_word_replacements "Visit NASA HQ today".toList
        [("NASA".toList, "N-A-S-A".toList), ("NASA HQ".toList, "N-A-S-A Headquarters".toList)] =
      Except.ok "Visit N-A-S-A Headquarters today".toList ∧
    process_word_replacements "visit nasa hq today!".toList
        [("NASA".toList, "N-A-S-A".toList), ("NASA HQ".toList, "N-A-S-A Headquarters".toList)] =
      Except.ok "visit N-A-S-A Headquarters today!".toList ∧
    ∀ v : List Char,
      process_word_replacements "category".toList [("cat".toList, v)] =
        (compileTemplate v).map (fun _ => "category".toList) := by
  refine ⟨rfl, rfl, ?_⟩
  intro v
  have e1 : process_word_replacements "category".toList [("cat".toList, v)] =
      (match compileTemplate v with
        | Except.error e => Except.error e
        | Except.ok tmpl =>
          Except.ok (reSub (wordKeyMatch "cat".toList tmpl) "category".toList)) := rfl
  rw [e1]
  cases h : compileTemplate v with
  | error e => rfl
  | ok t => rfl

/-- Claim C4, counterexample: markdown stripping is not idempotent — on
"*# hello" one strip removes the asterisk and yields "# hello", and a second
strip then removes the whole line as a heading. -/
theorem claim_c4_counterexample :
    remove_markdown (remove_markdown "*# hello".toList) ≠
      remove_markdown "*# hello".toList := by
  decide

theorem headerMatch_none (prev : Option Char) (t : List Char)
    (h : ∀ c, t.head? = some c → ¬c = '#') : headerMatch prev t = none := by
  cases t with
  | nil => rfl
  | cons c r =>
    have hc : (c == '#') = false := beq_eq_false_iff_ne.mpr (h c rfl)
    simp [headerMatch, hc]

theorem linkMatch_none (t : List Char)
    (h : ∀ c, t.head? = some c → ¬c = '[') : linkMatch t = none := by
  cases t with
  | nil => rfl
  | cons c r =>
    have hc : (c == '[') = false := beq_eq_false_iff_ne.mpr (h c rfl)
    simp [linkMatch, hc]

theorem emphMatch_none (t : List Char)
    (h : ∀ c, t.head? = some c → isEmph c = false) : emphMatch t = none := by
  cases t with
  | nil => rfl
  | cons a r =>
    cases r with
    | nil => simp [emphMatch, h a rfl]
    | cons b r2 => simp [emphMatch, h a rfl]

theorem ruleMatch_none (t : List Char)
    (h : ∀ c, t.head? = some c → isHr c = false ∧ isQm c = false) : ruleMatch t = none := by
  cases t with
  | nil => rfl
  | cons a r =>
    cases r with
    | nil => simp [ruleMatch, (h a rfl).1, (h a rfl).2, List.takeWhile]
    | cons b r2 => simp [ruleMatch, (h a rfl).1, (h a rfl).2, List.takeWhile]

theorem stripTagsAux_id (s : List Char) (h : ∀ c ∈ s, ¬c = '<') :
    ∀ fuel, stripTagsAux fuel s = s := by
  induction s with
  | nil => intro fuel; cases fuel <;> rfl
  | cons c cs ih =>
    intro fuel
    cases fuel with
    | zero => rfl
    | succ f =>
      have hc : (c == '<') = false := beq_eq_false_iff_ne.mpr (h c (List.mem_cons_self c cs))
      simp [stripTagsAux, hc, ih (fun x hx => h x (List.mem_cons_of_mem c hx)) f]

theorem dropWhile_twice (p : Char → Bool) (l : List Char) :
    (l.dropWhile p).dropWhile p = l.dropWhile p := by
  induction l with
  | nil => rfl
  | cons c r ih =>
    cases hp : p c with
    | true => simp [List.dropWhile, hp, ih]
    | false => simp [List.dropWhile, hp]

theorem dropWhile_head_false (p : Char → Bool) (l : List Char) :
    ∀ c, (l.dropWhile p).head? = some c → p c = false := by
  induction l with
  | nil => intro c hc; cases hc
  | cons x r ih =>
    intro c hc
    cases hp : p x with
    | true => rw [List.dropWhile_cons_of_pos hp] at hc; exact ih c hc
    | false =>
      rw [List.dropWhile_cons_of_neg (by simp [hp])] at hc
      simp at hc
      exact hc ▸ hp

theorem dropWhile_getLast? (p : Char → Bool) (l : List Char)
    (h : l.dropWhile p ≠ []) : (l.dropWhile p).getLast? = l.getLast? := by
  induction l with
  | nil => simp at h
  | cons c r ih =>
    cases hp : p c with
    | false => rw [List.dropWhile_cons_of_neg (by simp [hp])]
    | true =>
      rw [List.dropWhile_cons_of_pos hp] at h ⊢
      have hr : r ≠ [] := by
        intro he; rw [he] at h; exact h rfl
      rw [ih h]
      cases r with
      | nil => exact absurd rfl hr
      | cons x xs => rw [List.getLast?_cons_cons]

theorem head_false_dropWhile (p : Char → Bool) (l : List Char)
    (h : ∀ c, l.head? = some c → p c = false) : l.dropWhile p = l := by
  cases l with
  | nil => rfl
  | cons c r => rw [List.dropWhile_cons_of_neg (by simp [h c rfl])]

theorem pyStrip_idem (u : List Char) : pyStrip (pyStrip u) = pyStrip u := by
  unfold pyStrip
  set X := (u.dropWhile isPySpace).reverse with hX
  set w := (X.dropWhile isPySpace).reverse with hw
  have hw2 : w.reverse = X.dropWhile isPySpace := by rw [hw, List.reverse_reverse]
  have hfront : w.dropWhile isPySpace = w := by
    apply head_false_dropWhile
    intro c hc
    have h1 : (X.dropWhile isPySpace).getLast? = some c := by
      rw [← List.head?_reverse]
      rw [← hw] at *
      exact hc
    have hne : X.dropWhile isPySpace ≠ [] := by
      intro he
      rw [he] at h1
      cases h1
    rw [dropWhile_getLast? _ _ hne] at h1
    rw [hX, List.getLast?_reverse] at h1
    exact dropWhile_head_false _ _ c h1
  have hback : w.reverse.dropWhile isPySpace = w.reverse := by
    rw [hw2, dropWhile_twice]
  rw [hfront, hback, List.reverse_reverse]

/-- Characters whose absence from the output makes every stripping pass a
no-op: heading marker, link opener, emphasis characters, rule/quote/list
markers, tag opener and the unmodelled ampersand. -/
def mdBad : List Char := ['#', '[', '*', '~', Char.ofNat 96, '-', '>', '<', '&']

theorem remove_markdown_fixes (w : List Char) (h : ∀ c ∈ w, ¬c ∈ mdBad)
    (hs : pyStrip w = w) : remove_markdown w = w := by
  have hhead : ∀ t ∈ sufxs w, ∀ c, t.head? = some c → c ∈ w := by
    intro t ht c hc
    apply sufxs_sub w t ht
    cases t with
    | nil => cases hc
    | cons x r => simp at hc; rw [hc]; exact List.mem_cons_self c r
  have hne : ∀ c ∈ w, ¬c = '#' ∧ ¬c = '[' ∧ isEmph c = false ∧ isHr c = false ∧
      isQm c = false ∧ ¬c = '<' := by
    intro c hc
    have hb := h c hc
    simp [mdBad] at hb
    refine ⟨hb.1, hb.2.1, ?_, ?_, ?_, hb.2.2.2.2.2.2.2.1⟩
    · simp [isEmph, beq_eq_false_iff_ne.mpr hb.2.2.1, beq_eq_false_iff_ne.mpr hb.2.2.2.1,
        beq_eq_false_iff_ne.mpr hb.2.2.2.2.1]
    · simp [isHr, beq_eq_false_iff_ne.mpr hb.2.2.2.2.2.1, beq_eq_false_iff_ne.mpr hb.2.2.1]
    · simp [isQm, beq_eq_false_iff_ne.mpr hb.2.2.2.2.2.2.1,
        beq_eq_false_iff_ne.mpr hb.2.2.2.2.2.1, beq_eq_false_iff_ne.mpr hb.2.2.1]
  have h1 : reSub headerMatch w = w := by
    apply reSub_id
    intro prev t ht
    exact headerMatch_none prev t (fun c hc => (hne c (hhead t ht c hc)).1)
  have h2 : reSub (fun _ s => linkMatch s) w = w := by
    apply reSub_id
    intro prev t ht
    exact linkMatch_none t (fun c hc => (hne c (hhead t ht c hc)).2.1)
  have h3 : reSub (fun _ s => emphMatch s) w = w := by
    apply reSub_id
    intro prev t ht
    exact emphMatch_none t (fun c hc => (hne c (hhead t ht c hc)).2.2.1)
  have h4 : reSub (fun _ s => ruleMatch s) w = w := by
    apply reSub_id
    intro prev t ht
    exact ruleMatch_none t
      (fun c hc => ⟨(hne c (hhead t ht c hc)).2.2.2.1, (hne c (hhead t ht c hc)).2.2.2.2.1⟩)
  have h5 : strip_tags w = w :=
    stripTagsAux_id w (fun c hc => (hne c hc).2.2.2.2.2) _
  show pyStrip (strip_tags (reSub (fun _ s => ruleMatch s) (reSub (fun _ s => emphMatch s)
    (reSub (fun _ s => linkMatch s) (reSub headerMatch w))))) = w
  rw [h1, h2, h3, h4, h5, hs]

/-- Claim C4, amended: markdown stripping is idempotent on every input whose
once-stripped result contains none of the marker characters
`# [ * ~ `` ` `` - > < &` (so no pass of the second strip can fire; the
counterexample shows idempotence fails when a first strip uncovers a new
marker, here a heading). -/
theorem claim_c4_amended (md : List Char)
    (h : ∀ c ∈ remove_markdown md, ¬c ∈ mdBad) :
    remove_markdown (remove_markdown md) = remove_markdown md := by
  apply remove_markdown_fixes _ h
  show pyStrip (remove_markdown md) = remove_markdown md
  simp only [remove_markdown]
  exact pyStrip_idem _

/-- Claim C4, witness: the amended idempotence applied at "hello world". -/
theorem claim_c4_witness :
    (∀ c ∈ remove_markdown "hello world".toList, ¬c ∈ mdBad) ∧
    remove_markdown (remove_markdown "hello world".toList) =
      remove_markdown "hello world".toList :=
  ⟨by decide, claim_c4_amended _ (by decide)⟩

/-- Claim C8, counterexample: a mapping value consisting of a single
backslash makes Python compile an invalid replacement template (re.error
"bad escape (end of pattern)", raised before scanning), so `phonetic_format`
does not return a string for every string-to-string mapping. -/
theorem claim_c8_counterexample :
    phonetic_format "a".toList [("a".toList, ['\\'])] =
      Except.error "bad escape (end of pattern)" := rfl

theorem compileTemplate_ok (v : List Char) (h : ¬ '\\' ∈ v) :
    ∃ t, compileTemplate v = Except.ok t := by
  induction v with
  | nil => exact ⟨[], rfl⟩
  | cons c cs ih =>
    have hcne : c ≠ '\\' := by
      intro he
      exact h (by rw [← he]; exact List.mem_cons_self c cs)
    have hc : (c == '\\') = false := beq_eq_false_iff_ne.mpr hcne
    obtain ⟨t, ht⟩ := ih (fun hm => h (List.mem_cons_of_mem c hm))
    exact ⟨TItem.lit c :: t, by rw [compileTemplate.eq_def]; simp [hc, ht, Except.map]⟩

theorem lookupVal_mem (m : List (List Char × List Char)) (k : List Char) :
    lookupVal m k = [] ∨ ∃ p ∈ m, lookupVal m k = p.2 := by
  induction m with
  | nil => exact Or.inl rfl
  | cons p rest ih =>
    by_cases hk : p.1 = k
    · exact Or.inr ⟨p, List.mem_cons_self p rest, by simp [lookupVal, hk]⟩
    · rcases ih with h0 | ⟨q, hq, hv⟩
      · exact Or.inl (by simpa [lookupVal, hk] using h0)
      · exact Or.inr ⟨q, List.mem_cons_of_mem p hq, by simpa [lookupVal, hk] using hv⟩

theorem pwrGo_ok (m : List (List Char × List Char)) (h : ∀ p ∈ m, ¬ '\\' ∈ p.2) :
    ∀ ks text, ∃ r, pwrGo m ks text = Except.ok r := by
  intro ks
  induction ks with
  | nil => intro text; exact ⟨text, rfl⟩
  | cons k ks ih =>
    intro text
    have hv : ¬ '\\' ∈ lookupVal m k := by
      rcases lookupVal_mem m k with h0 | ⟨p, hp, hveq⟩
      · rw [h0]; exact List.not_mem_nil _
      · rw [hveq]; exact h p hp
    obtain ⟨t, ht⟩ := compileTemplate_ok _ hv
    obtain ⟨r, hr⟩ := ih (reSub (wordKeyMatch k t) text)
    exact ⟨r, by simp [pwrGo, ht, hr]⟩

/-- Claim C8, amended: for every text and every mapping whose values contain
no backslash, `phonetic_format` returns a string and raises no exception —
keys (including keys full of regex metacharacters) are escaped before
compilation and can never fail; only a backslash escape inside a replacement
value can raise, as the counterexample shows. -/
theorem claim_c8_amended (text : List Char) (mapping : List (List Char × List Char))
    (h : ∀ p ∈ mapping, ¬ '\\' ∈ p.2) :
    exceptOk (phonetic_format text mapping) = true := by
  obtain ⟨r, hr⟩ := pwrGo_ok mapping h (sortKeysDesc (mapping.map (fun p => p.1)))
    (process_emails (process_urls (process_phone_numbers text)))
  have hpwr : process_word_replacements
      (process_emails (process_urls (process_phone_numbers text))) mapping =
      Except.ok r := hr
  show exceptOk
    (match process_word_replacements
        (process_emails (process_urls (process_phone_numbers text))) mapping with
      | Except.error e => Except.error e
      | Except.ok t4 => Except.ok (remove_markdown t4)) = true
  rw [hpwr]
  rfl

/-- Claim C8, witness: the amended theorem applied to a key containing the
regex metacharacters `.` and `(`. -/
theorem claim_c8_witness :
    (∀ p ∈ ([("a.b(".toList, "x y".toList)] : List (List Char × List Char)), ¬ '\\' ∈ p.2) ∧
    exceptOk (phonetic_format "see a.b( now".toList [("a.b(".toList, "x y".toList)]) = true :=
  ⟨by decide, claim_c8_amended _ _ (by decide)⟩

/-- The shape of a phone replacement: digits joined by single hyphens. -/
def hyphJoin : List Char → List Char
  | [] => []
  | [d] => [d]
  | d :: e :: r => d :: '-' :: hyphJoin (e :: r)

theorem isWordChar_of_digit (c : Char) (h : c.isDigit = true) : isWordChar c = true := by
  simp [isWordChar, Char.isAlphanum, h]

theorem digit_beq_false (c x : Char) (h : c.isDigit = true) (hx : x.isDigit = false) :
    (c == x) = false := by
  cases hb : c == x with
  | false => rfl
  | true =>
    rw [eq_of_beq hb] at h
    rw [h] at hx
    cases hx

theorem phone2core_none_head (w : Bool) (a : Char) (s : List Char)
    (h : (a == '(') = false) : phone2core w (a :: s) = none := by
  rcases s with _ | ⟨x1, _ | ⟨x2, _ | ⟨x3, _ | ⟨x4, _ | ⟨x5, _ | ⟨x6, _ | ⟨x7, _ | ⟨x8, _ |
    ⟨x9, _ | ⟨x10, _ | ⟨x11, _ | ⟨x12, rest⟩⟩⟩⟩⟩⟩⟩⟩⟩⟩⟩⟩
  all_goals first
    | rfl
    | simp [phone2core, h]

theorem phone3core_none_two (w : Bool) (a b : Char) (s : List Char)
    (h : a.isDigit = false ∨ b.isDigit = false) : phone3core w (a :: b :: s) = none := by
  rcases s with _ | ⟨x1, _ | ⟨x2, _ | ⟨x3, _ | ⟨x4, _ | ⟨x5, _ | ⟨x6, rest⟩⟩⟩⟩⟩⟩
  all_goals rcases h with h | h
  all_goals first
    | rfl
    | simp [phone3core, h]

theorem hyphJoin_no_fire (ds : List Char) (hd : ∀ x ∈ ds, x.isDigit = true) :
    ∀ t ∈ sufxs (hyphJoin ds), ∀ w, phone2core w t = none ∧ phone3core w t = none := by
  induction ds with
  | nil =>
    intro t ht w
    simp [hyphJoin, sufxs] at ht
    subst ht
    exact ⟨rfl, rfl⟩
  | cons d rest ih =>
    cases rest with
    | nil =>
      intro t ht w
      simp [hyphJoin, sufxs] at ht
      rcases ht with rfl | rfl
      · exact ⟨rfl, rfl⟩
      · exact ⟨rfl, rfl⟩
    | cons e r =>
      intro t ht w
      have hd1 : d.isDigit = true := hd d (List.mem_cons_self d _)
      have hX : hyphJoin (d :: e :: r) = d :: '-' :: hyphJoin (e :: r) := rfl
      rw [hX] at ht
      simp only [sufxs, List.mem_cons] at ht
      rcases ht with rfl | rfl | ht3
      · refine ⟨phone2core_none_head w d _ (digit_beq_false d '(' hd1 (by decide)), ?_⟩
        exact phone3core_none_two w d '-' _ (Or.inr (by decide))
      · refine ⟨phone2core_none_head w '-' _ (by decide), ?_⟩
        cases hH : hyphJoin (e :: r) with
        | nil => rfl
        | cons y ys => exact phone3core_none_two w '-' y ys (Or.inl (by decide))
      · exact ih (fun x hx => hd x (List.mem_cons_of_mem d hx)) t ht3 w

/-- Claim C6: for any ten digit characters, `process_phone_numbers` rewrites
the standalone string `d₁d₂d₃-d₄d₅d₆-d₇d₈d₉d₁₀` to the ten digits joined with
single hyphens (and the later 7-digit pattern cannot re-substitute the
already-expanded digits, which no longer contain two adjacent digits); in
particular `phonetic_format` maps "123-456-7890" with the empty mapping to
"1-2-3-4-5-6-7-8-9-0". -/
theorem claim_c6_ten_digit (a b c d e f g h i j : Char)
    (h1 : a.isDigit = true) (h2 : b.isDigit = true) (h3 : c.isDigit = true)
    (h4 : d.isDigit = true) (h5 : e.isDigit = true) (h6 : f.isDigit = true)
    (h7 : g.isDigit = true) (h8 : h.isDigit = true) (h9 : i.isDigit = true)
    (h10 : j.isDigit = true) :
    process_phone_numbers [a, b, c, '-', d, e, f, '-', g, h, i, j] =
      [a, '-', b, '-', c, '-', d, '-', e, '-', f, '-', g, '-', h, '-', i, '-', j] ∧
    phonetic_format "123-456-7890".toList [] = Except.ok "1-2-3-4-5-6-7-8-9-0".toList := by
  refine ⟨?_, rfl⟩
  have hsep : isSep '-' = true := by decide
  have hm : phone1core false [a, b, c, '-', d, e, f, '-', g, h, i, j] =
      some ([a, '-', b, '-', c, '-', d, '-', e, '-', f, '-', g, '-', h, '-', i, '-', j],
            [a, b, c, '-', d, e, f, '-', g, h, i, j], []) := by
    simp [phone1core, bnd, restW, hsep, isWordChar_of_digit a h1, isWordChar_of_digit j h10,
      h1, h2, h3, h4, h5, h6, h7, h8, h9, h10]
  have hdigits : ∀ x ∈ [a, b, c, d, e, f, g, h, i, j], x.isDigit = true := by
    intro x hx
    simp only [List.mem_cons, List.not_mem_nil, or_false] at hx
    rcases hx with rfl | rfl | rfl | rfl | rfl | rfl | rfl | rfl | rfl | rfl <;> assumption
  have hstep : reSub (fun prev t => phone1core (optW prev) t)
      [a, b, c, '-', d, e, f, '-', g, h, i, j] =
      [a, '-', b, '-', c, '-', d, '-', e, '-', f, '-', g, '-', h, '-', i, '-', j] := by
    have e0 : reSub (fun prev t => phone1core (optW prev) t)
        [a, b, c, '-', d, e, f, '-', g, h, i, j] =
        reSubAux (fun prev t => phone1core (optW prev) t) (12 + 1) none
          [a, b, c, '-', d, e, f, '-', g, h, i, j] := rfl
    rw [e0, reSubAux_step _ 12 none a [b, c, '-', d, e, f, '-', g, h, i, j]
      [a, '-', b, '-', c, '-', d, '-', e, '-', f, '-', g, '-', h, '-', i, '-', j]
      [b, c, '-', d, e, f, '-', g, h, i, j] a [] hm]
    rw [reSubAux_nil _ 12 _ rfl, List.append_nil]
  have hsA : phoneSub phone1core [a, b, c, '-', d, e, f, '-', g, h, i, j] =
      [a, '-', b, '-', c, '-', d, '-', e, '-', f, '-', g, '-', h, '-', i, '-', j] := by
    have hsearch : hasMatchAux phone1core false [a, b, c, '-', d, e, f, '-', g, h, i, j] =
        true := by
      simp [hasMatchAux, hm]
    simp only [phoneSub, hsearch, if_true]
    exact hstep
  have hB : phoneSub phone2core
      [a, '-', b, '-', c, '-', d, '-', e, '-', f, '-', g, '-', h, '-', i, '-', j] =
      [a, '-', b, '-', c, '-', d, '-', e, '-', f, '-', g, '-', h, '-', i, '-', j] :=
    phoneSub_id _ _ (fun w t ht => (hyphJoin_no_fire [a, b, c, d, e, f, g, h, i, j] hdigits t ht w).1)
  have hC : phoneSub phone3core
      [a, '-', b, '-', c, '-', d, '-', e, '-', f, '-', g, '-', h, '-', i, '-', j] =
      [a, '-', b, '-', c, '-', d, '-', e, '-', f, '-', g, '-', h, '-', i, '-', j] :=
    phoneSub_id _ _ (fun w t ht => (hyphJoin_no_fire [a, b, c, d, e, f, g, h, i, j] hdigits t ht w).2)
  show phoneSub phone3core (phoneSub phone2core
    (phoneSub phone1core [a, b, c, '-', d, e, f, '-', g, h, i, j])) = _
  rw [hsA, hB, hC]

/-- Claim C6, witness: the ten-digit theorem applied at the digits 1…0. -/
theorem claim_c6_witness :
    ('1' : Char).isDigit = true ∧
    process_phone_numbers ['1', '2', '3', '-', '4', '5', '6', '-', '7', '8', '9', '0'] =
      ['1', '-', '2', '-', '3', '-', '4', '-', '5', '-', '6', '-', '7', '-', '8', '-', '9',
        '-', '0'] :=
  ⟨by decide,
    (claim_c6_ten_digit '1' '2' '3' '4' '5' '6' '7' '8' '9' '0' (by decide) (by decide)
      (by decide) (by decide) (by decide) (by decide) (by decide) (by decide) (by decide)
      (by decide)).1⟩

/-- Claim C9: for every text on which none of the three phone matchers can
fire at any position, and whose markdown-link, bare-URL and e-mail `findall`s
are all empty, `phonetic_format` with the empty mapping returns exactly
`remove_markdown` of the text — the input passes through unchanged apart
from markdown stripping. -/
theorem claim_c9_no_match_passthrough (text : List Char)
    (hp : ∀ t ∈ sufxs text,
      phone1core false t = none ∧ phone1core true t = none ∧
      phone2core false t = none ∧ phone2core true t = none ∧
      phone3core false t = none ∧ phone3core true t = none)
    (hmd : mdFindall text = [])
    (hurl : urlFindall text = [])
    (hem : emailFindall text = []) :
    phonetic_format text [] = Except.ok (remove_markdown text) := by
  have h1 : phoneSub phone1core text = text :=
    phoneSub_id _ _ (fun w t ht => by cases w
                                      · exact (hp t ht).1
                                      · exact (hp t ht).2.1)
  have h2 : phoneSub phone2core text = text :=
    phoneSub_id _ _ (fun w t ht => by cases w
                                      · exact (hp t ht).2.2.1
                                      · exact (hp t ht).2.2.2.1)
  have h3 : phoneSub phone3core text = text :=
    phoneSub_id _ _ (fun w t ht => by cases w
                                      · exact (hp t ht).2.2.2.2.1
                                      · exact (hp t ht).2.2.2.2.2)
  have hps : process_phone_numbers text = text := by
    rw [process_phone_numbers, h1, h2, h3]
  have hu : process_urls text = text := by
    simp [process_urls, hmd, hurl]
  have he : process_emails text = text := by
    simp [process_emails, hem]
  show (match process_word_replacements
      (process_emails (process_urls (process_phone_numbers text))) [] with
    | Except.error e => Except.error e
    | Except.ok t4 => Except.ok (remove_markdown t4)) = Except.ok (remove_markdown text)
  rw [hps, hu, he]
  rfl

/-- Claim C9, witness: the pass-through theorem applied at "hello world". -/
theorem claim_c9_witness :
    ((∀ t ∈ sufxs "hello world".toList,
        phone1core false t = none ∧ phone1core true t = none ∧
        phone2core false t = none ∧ phone2core true t = none ∧
        phone3core false t = none ∧ phone3core true t = none) ∧
      mdFindall "hello world".toList = [] ∧
      urlFindall "hello world".toList = [] ∧
      emailFindall "hello world".toList = []) ∧
    phonetic_format "hello world".toList [] =
      Except.ok (remove_markdown "hello world".toList) :=
  ⟨⟨by decide, by decide, by decide, by decide⟩,
    claim_c9_no_match_passthrough _ (by decide) (by decide) (by decide) (by decide)⟩

/-- Claim C10, counterexample: with the equal-length keys "ab" and "cd" and
values chosen so one substitution feeds the other, the two insertion orders of
the same key-value pairs give different outputs ("cd" → "ab" stops there in
one order but is further rewritten to "x" in the other), because the stable
length sort keeps insertion order among equal-length keys. -/
theorem claim_c10_counterexample :
    (([("ab".toList, "x".toList), ("cd".toList, "ab".toList)] :
        List (List Char × List Char)).Perm
      [("cd".toList, "ab".toList), ("ab".toList, "x".toList)]) ∧
    phonetic_format "cd".toList [("ab".toList, "x".toList), ("cd".toList, "ab".toList)] ≠
      phonetic_format "cd".toList [("cd".toList, "ab".toList), ("ab".toList, "x".toList)] := by
  constructor
  · exact List.Perm.swap _ _ _
  · intro he
    have h1 : phonetic_format "cd".toList
        [("ab".toList, "x".toList), ("cd".toList, "ab".toList)] =
        Except.ok "ab".toList := rfl
    have h2 : phonetic_format "cd".toList
        [("cd".toList, "ab".toList), ("ab".toList, "x".toList)] =
        Except.ok "x".toList := rfl
    rw [h1, h2] at he
    injection he with h3
    exact absurd h3 (by decide)

theorem insertKeyDesc_perm (k : List Char) (l : List (List Char)) :
    (insertKeyDesc k l).Perm (k :: l) := by
  induction l with
  | nil => exact List.Perm.refl _
  | cons x xs ih =>
    by_cases hle : x.length ≤ k.length
    · simp only [insertKeyDesc, if_pos hle]
      exact List.Perm.refl _
    · simp only [insertKeyDesc, if_neg hle]
      exact (List.Perm.cons x ih).trans (List.Perm.swap k x xs)

theorem sortKeysDesc_perm (l : List (List Char)) : (sortKeysDesc l).Perm l := by
  induction l with
  | nil => exact List.Perm.refl _
  | cons k ks ih =>
    exact (insertKeyDesc_perm k (sortKeysDesc ks)).trans (List.Perm.cons k ih)

theorem insertKeyDesc_sorted (k : List Char) (l : List (List Char))
    (hl : l.Pairwise (fun A B => B.length ≤ A.length)) :
    (insertKeyDesc k l).Pairwise (fun A B => B.length ≤ A.length) := by
  induction l with
  | nil => simp [insertKeyDesc]
  | cons x xs ih =>
    rcases List.pairwise_cons.mp hl with ⟨hx, hxs⟩
    by_cases hle : x.length ≤ k.length
    · simp only [insertKeyDesc, if_pos hle]
      refine List.pairwise_cons.mpr ⟨?_, hl⟩
      intro y hy
      rcases List.mem_cons.mp hy with rfl | hy2
      · exact hle
      · exact le_trans (hx y hy2) hle
    · simp only [insertKeyDesc, if_neg hle]
      refine List.pairwise_cons.mpr ⟨?_, ih hxs⟩
      intro y hy
      rcases List.mem_cons.mp ((insertKeyDesc_perm k xs).mem_iff.mp hy) with rfl | hy2
      · exact le_of_lt (Nat.lt_of_not_le hle)
      · exact hx y hy2

theorem sortKeysDesc_sorted (l : List (List Char)) :
    (sortKeysDesc l).Pairwise (fun A B => B.length ≤ A.length) := by
  induction l with
  | nil => simp [sortKeysDesc]
  | cons k ks ih => exact insertKeyDesc_sorted k _ ih

theorem sorted_desc_unique : ∀ l1 l2 : List (List Char), l1.Perm l2 →
    l1.Pairwise (fun A B => B.length ≤ A.length) →
    l2.Pairwise (fun A B => B.length ≤ A.length) →
    l1.Pairwise (fun A B => A.length ≠ B.length) → l1 = l2 := by
  intro l1
  induction l1 with
  | nil =>
    intro l2 hperm _ _ _
    exact hperm.nil_eq
  | cons a t1 ih =>
    intro l2 hperm hs1 hs2 hne
    cases l2 with
    | nil => exact absurd hperm.eq_nil (by simp)
    | cons b t2 =>
      rcases List.pairwise_cons.mp hs1 with ⟨hb1, hs1t⟩
      rcases List.pairwise_cons.mp hs2 with ⟨hb2, hs2t⟩
      rcases List.pairwise_cons.mp hne with ⟨hne1, hnet⟩
      have hab : a = b := by
        rcases List.mem_cons.mp (hperm.mem_iff.mp (List.mem_cons_self a t1)) with h | h
        · exact h
        · have ha2 : a.length ≤ b.length := hb2 a h
          rcases List.mem_cons.mp (hperm.symm.mem_iff.mp (List.mem_cons_self b t2)) with h2 | h2
          · exact h2.symm
          · exact absurd (Nat.le_antisymm ha2 (hb1 b h2)) (hne1 b h2)
      subst hab
      rw [ih t2 hperm.cons_inv hs1t hs2t hnet]

theorem lookupVal_perm (m1 m2 : List (List Char × List Char)) (hperm : m1.Perm m2) :
    (m1.map (fun p => p.1)).Nodup → ∀ k, lookupVal m1 k = lookupVal m2 k := by
  induction hperm with
  | nil => intro _ k; rfl
  | cons x h ih =>
    intro hnd k
    simp only [List.map_cons, List.nodup_cons] at hnd
    by_cases hk : x.1 = k
    · simp [lookupVal, hk]
    · simp only [lookupVal, if_neg hk]
      exact ih hnd.2 k
  | swap x y l =>
    intro hnd k
    simp only [List.map_cons, List.nodup_cons, List.mem_cons] at hnd
    have hxy : y.1 ≠ x.1 := fun hh => hnd.1 (Or.inl hh)
    by_cases hy : y.1 = k <;> by_cases hx : x.1 = k
    · exact absurd (hy.trans hx.symm) hxy
    · simp [lookupVal, hy, hx]
    · simp [lookupVal, hy, hx]
    · simp [lookupVal, hy, hx]
  | trans h1 h2 ih1 ih2 =>
    intro hnd k
    have hnd2 := ((h1.map (fun p => p.1)).nodup_iff).mp hnd
    rw [ih1 hnd k, ih2 hnd2 k]

theorem pwrGo_congr (m1 m2 : List (List Char × List Char))
    (hl : ∀ k, lookupVal m1 k = lookupVal m2 k) :
    ∀ ks text, pwrGo m1 ks text = pwrGo m2 ks text := by
  intro ks
  induction ks with
  | nil => intro text; rfl
  | cons k ks ih =>
    intro text
    show (match compileTemplate (lookupVal m1 k) with
        | Except.error e => Except.error e
        | Except.ok tmpl => pwrGo m1 ks (reSub (wordKeyMatch k tmpl) text)) =
      (match compileTemplate (lookupVal m2 k) with
        | Except.error e => Except.error e
        | Except.ok tmpl => pwrGo m2 ks (reSub (wordKeyMatch k tmpl) text))
    rw [hl k]
    cases compileTemplate (lookupVal m2 k) with
    | error e => rfl
    | ok t => exact ih _

/-- Claim C10, amended: the output of `phonetic_format` does not depend on
the insertion order of the mapping provided all keys have pairwise distinct
lengths (the counterexample shows that with two equal-length keys the stable
length sort preserves insertion order and the output can differ). -/
theorem claim_c10_amended (text : List Char) (m1 m2 : List (List Char × List Char))
    (hperm : m1.Perm m2)
    (hne : m1.Pairwise (fun p q => p.1.length ≠ q.1.length)) :
    phonetic_format text m1 = phonetic_format text m2 := by
  have hkeysne : (m1.map (fun p => p.1)).Pairwise (fun A B => A.length ≠ B.length) :=
    (List.pairwise_map).mpr hne
  have hnd : (m1.map (fun p => p.1)).Nodup :=
    hkeysne.imp (fun hab he => hab (by rw [he]))
  have hkeysperm : (m1.map (fun p => p.1)).Perm (m2.map (fun p => p.1)) := hperm.map _
  have hp1 : (sortKeysDesc (m1.map (fun p => p.1))).Perm
      (sortKeysDesc (m2.map (fun p => p.1))) :=
    (sortKeysDesc_perm _).trans (hkeysperm.trans (sortKeysDesc_perm _).symm)
  have hne1 : (sortKeysDesc (m1.map (fun p => p.1))).Pairwise
      (fun A B => A.length ≠ B.length) :=
    (List.Perm.pairwise_iff (fun hab => hab.symm) (sortKeysDesc_perm _)).mpr hkeysne
  have hsorteq : sortKeysDesc (m1.map (fun p => p.1)) =
      sortKeysDesc (m2.map (fun p => p.1)) :=
    sorted_desc_unique _ _ hp1 (sortKeysDesc_sorted _) (sortKeysDesc_sorted _) hne1
  have hpwr : ∀ t, process_word_replacements t m1 = process_word_replacements t m2 := by
    intro t
    show pwrGo m1 (sortKeysDesc (m1.map (fun p => p.1))) t =
      pwrGo m2 (sortKeysDesc (m2.map (fun p => p.1))) t
    rw [hsorteq, pwrGo_congr m1 m2 (lookupVal_perm m1 m2 hperm hnd)]
  show (match process_word_replacements
      (process_emails (process_urls (process_phone_numbers text))) m1 with
    | Except.error e => Except.error e
    | Except.ok t4 => Except.ok (remove_markdown t4)) =
    (match process_word_replacements
      (process_emails (process_urls (process_phone_numbers text))) m2 with
    | Except.error e => Except.error e
    | Except.ok t4 => Except.ok (remove_markdown t4))
  rw [hpwr]

/-- Claim C10, witness: the amended order-independence applied to two
insertion orders of a mapping whose keys have distinct lengths. -/
theorem claim_c10_witness :
    ((([("ab".toList, "1".toList), ("c".toList, "2".toList)] :
        List (List Char × List Char)).Perm
      [("c".toList, "2".toList), ("ab".toList, "1".toList)]) ∧
      ([("ab".toList, "1".toList), ("c".toList, "2".toList)] :
        List (List Char × List Char)).Pairwise (fun p q => p.1.length ≠ q.1.length)) ∧
    phonetic_format "z".toList [("ab".toList, "1".toList), ("c".toList, "2".toList)] =
      phonetic_format "z".toList [("c".toList, "2".toList), ("ab".toList, "1".toList)] :=
  ⟨⟨List.Perm.swap _ _ _, by decide⟩,
    claim_c10_amended _ _ _ (List.Perm.swap _ _ _) (by decide)⟩

/-- Claim C2, witness: the all-alphanumeric spelling contract of the amended
claim applied at the piece "page". -/
theorem claim_c2_witness :
    "page".toList.all Char.isAlphanum = true ∧
    convert_each_char "page".toList =
      "page".toList.foldr (fun c acc => c :: '-' :: acc) [] :=
  ⟨by decide, claim_c2_amended.1 "page".toList (by decide)⟩
